import Mathlib

/-!
Shallow embedding of the Smart-Search filename index
(`src/utils/helpers.py`, `src/config.py`, `src/models/data_models.py`,
`src/search/file_search.py`, `src/auto_index.py`, `src/search/image_search.py`).

Conventions of the embedding:
* Python functions that can raise an uncaught exception are modelled as
  `Option`-valued functions; `none` is "raises".
* Python's `ch.isalpha()` is modelled by Lean's ASCII `Char.isAlpha`; every
  character occurring in the claims and in `config.VALID_SYMBOLS` is ASCII, and
  on ASCII the two functions agree.
* The SQLite table `file_index` is modelled as a list of rows in insertion
  order; a `SELECT ... LIKE 'p%'` scan is a filter by string-prefix over that
  list (all stored keys and all normalized query prefixes consist only of
  lowercase ASCII letters and digits, so SQLite's case-insensitive `LIKE`
  with no wildcard in `p` is exactly a prefix test), and `LIMIT n` is `take n`.
* JSON values stored in `files_json` are modelled only as deeply as
  `search_db` inspects them: a top-level element is a record object, an array
  (whose elements are record objects or anything else), or anything else.
-/

namespace SmartSearch

/-! ## Key normalizer (`src/utils/helpers.py`, `src/config.py`) -/

/-- `config.DIGIT_MAP`: `{str(i): f"num{i}" for i in range(10)}`, as a lookup. -/
def DIGIT_MAP : Char → Option String
  | '0' => some "num0"
  | '1' => some "num1"
  | '2' => some "num2"
  | '3' => some "num3"
  | '4' => some "num4"
  | '5' => some "num5"
  | '6' => some "num6"
  | '7' => some "num7"
  | '8' => some "num8"
  | '9' => some "num9"
  | _ => none

/-- `config.SYMBOL_MAP`, as a lookup. -/
def SYMBOL_MAP : Char → Option String
  | ' ' => some "space"
  | '!' => some "exclamation"
  | '#' => some "hash"
  | '$' => some "dollar"
  | '%' => some "percent"
  | '&' => some "ampersand"
  | '\x27' => some "apostrophe"
  | '.' => some "dot"
  | '(' => some "lparen"
  | ')' => some "rparen"
  | '+' => some "plus"
  | ',' => some "comma"
  | '-' => some "dash"
  | ';' => some "semicolon"
  | '=' => some "equals"
  | '@' => some "at"
  | '[' => some "lbracket"
  | ']' => some "rbracket"
  | '^' => some "caret"
  | '_' => some "underscore"
  | '\x60' => some "backtick"
  | '\x7b' => some "lbrace"
  | '\x7d' => some "rbrace"
  | '~' => some "tilde"
  | _ => none

/-- `config.VALID_SYMBOLS = set(" .!#$%&'()+,-.;=@[]^_`{}~")` (the duplicate
`'.'` of the Python literal is kept; `set` membership is list membership). -/
def VALID_SYMBOLS : List Char :=
  [' ', '.', '!', '#', '$', '%', '&', '\x27', '(', ')', '+', ',', '-', '.',
   ';', '=', '@', '[', ']', '^', '_', '\x60', '\x7b', '\x7d', '~']

/-- `helpers.get_value`: alphabetic characters map to their lowercase form,
digits and permitted symbols through the two tables; any other character
raises `ValueError` (modelled as `none`). -/
def get_value (c : Char) : Option String :=
  if c.isAlpha then some (String.singleton c.toLower)
  else
    match DIGIT_MAP c with
    | some s => some s
    | none => SYMBOL_MAP c

/-- Apply `get_value` to the lowercase form of every character, collecting the
keys and propagating the `ValueError` (`none`).  This is the per-character
loop shared by `build_trees`, `build_search_index` and `search_db`
(Python lowercases the whole string first; `str.lower` acts per character on
ASCII, so the two are the same). -/
def mapKeys : List Char → Option (List String)
  | [] => some []
  | c :: cs =>
    match get_value c.toLower with
    | none => none
    | some k =>
      match mapKeys cs with
      | none => none
      | some ks => some (k :: ks)

/-- The character set `ALLOWED = set(string.ascii_letters + string.digits).union(VALID_SYMBOLS)`
used by `helpers.check_letters` (and by `has_valid_characters` in
`indexing/file_indexer.py` and `auto_index.py`, which are verbatim copies). -/
def ALLOWED : List Char :=
  ("abcdefghijklmnopqrstuvwxyzABCDEFGHIJKLMNOPQRSTUVWXYZ0123456789").data
    ++ VALID_SYMBOLS

/-- `helpers.check_letters`: every character of `s` is in `ALLOWED`. -/
def check_letters (s : String) : Bool :=
  s.data.all (fun ch => ALLOWED.contains ch)

/-- `auto_index.has_valid_characters` — a verbatim copy of `check_letters`. -/
def has_valid_characters (s : String) : Bool :=
  s.data.all (fun ch => ALLOWED.contains ch)

/-! ## Record store (`src/models/data_models.py`, class `FileData`) -/

/-- `FileData`: one filesystem entry; `length` is derived from the name at
construction. -/
structure FileData where
  file_name : String
  file_path : String
  file_type : String
  length : Nat
  deriving DecidableEq, Repr

/-- `FileData.__init__`: `length` is `len(name)`. -/
def mkFileData (name path ty : String) : FileData :=
  ⟨name, path, ty, name.length⟩

/-! ## In-memory trie (`models/data_models.py` class `Tree`,
`search/file_search.py` `build_trees` / `search_tree`)

A `Tree` node's per-key attributes (26 letters + digit names + symbol names,
each `None` or a child node) are modelled as an association list from the
canonical key to the child; `getattr node key` is `lookupChild`, and
`setattr node key child` is `setChild`. -/

inductive Trie where
  | node (files : List FileData) (children : List (String × Trie)) : Trie

def Trie.files : Trie → List FileData
  | .node fs _ => fs

def Trie.children : Trie → List (String × Trie)
  | .node _ cs => cs

/-- A fresh `Tree(value)`: empty record list, every child attribute `None`. -/
def Trie.empty : Trie := .node [] []

/-- `getattr node letter` on the child attributes. -/
def lookupChild : List (String × Trie) → String → Option Trie
  | [], _ => none
  | (k, c) :: rest, key => if k = key then some c else lookupChild rest key

/-- `setattr node letter child`: replace the attribute (keys are unique). -/
def setAssoc : List (String × Trie) → String → Trie → List (String × Trie)
  | [], key, c => [(key, c)]
  | (k, c') :: rest, key, c =>
    if k = key then (key, c) :: rest else (k, c') :: setAssoc rest key c

def setChild (t : Trie) (key : String) (c : Trie) : Trie :=
  .node t.files (setAssoc t.children key c)

/-- The loop body of `build_trees` from index 1 on: walk the canonical keys of
the remaining characters, creating children on demand, appending the record to
every node visited (the new node is created already holding the record). -/
def insertPath : Trie → List String → FileData → Trie
  | t, [], _ => t
  | t, key :: rest, fd =>
    match lookupChild t.children key with
    | none => setChild t key (insertPath (.node [fd] []) rest fd)
    | some c => setChild t key (insertPath (.node (c.files ++ [fd]) c.children) rest fd)

/-- The descent of a trie along a list of canonical keys (`none` when a child
attribute is missing); specification-side companion of the char-wise walk of
`search_tree`. -/
def walk : Trie → List String → Option Trie
  | t, [] => some t
  | t, k :: ks =>
    match lookupChild t.children k with
    | none => none
    | some c => walk c ks

/-- The record list found at the end of a key path (`[]` when the path falls
off the trie). -/
def filesAt (t : Trie) (q : List String) : List FileData :=
  match walk t q with
  | some n => n.files
  | none => []

/-- The global `trees` dictionary: one root per canonical key.  The Python dict
is initialized with an empty `Tree` for every possible canonical key, so it is
modelled as a total function from the key to the root. -/
def Roots := String → Trie

def initRoots : Roots := fun _ => Trie.empty

/-- One iteration of the `build_trees` loop.  `none` models an uncaught
exception: `list(name)[0]` raises `IndexError` for an empty name (which passes
`check_letters`), and `get_value` would raise `ValueError` on a character
without a key (unreachable after `check_letters` passes). -/
def build_trees_step (roots : Roots) (fd : FileData) : Option Roots :=
  if check_letters fd.file_name then
    match fd.file_name.data with
    | [] => none
    | c :: cs =>
      match get_value c.toLower with
      | none => none
      | some k0 =>
        match mapKeys cs with
        | none => none
        | some rest =>
          some (fun k =>
            if k = k0 then
              if rest = [] then .node ((roots k0).files ++ [fd]) (roots k0).children
              else insertPath (roots k0) rest fd
            else roots k)
  else some roots

/-- `file_search.build_trees`: records in input order, skipping any that fail
`check_letters`. -/
def build_trees (l : List FileData) : Option Roots :=
  l.foldlM build_trees_step initRoots

/-- The walk of `search_tree` over `prefix[1:]`: `get_value` may raise
(`none`), a missing child attribute returns `[]` immediately. -/
def walkChars (t : Trie) : List Char → Option (List FileData)
  | [] => some t.files
  | c :: cs =>
    match get_value c.toLower with
    | none => none
    | some k =>
      match lookupChild t.children k with
      | none => some []
      | some child => walkChars child cs

/-- `file_search.search_tree`.  The lazy-load branch is the identity when no
tree document is persisted on disk (the modelled situation); `trees.get` is
total here because every `get_value` output is a key of the dictionary. -/
def search_tree (roots : Roots) (p : String) : Option (List FileData) :=
  if p = "" then some []
  else
    match p.data with
    | [] => some []
    | c :: cs =>
      match get_value c.toLower with
      | none => none
      | some k0 => walkChars (roots k0) cs

/-! ## Durable prefix index (`file_search.py` SQLite section, `auto_index.py`) -/

/-- Python's `str.lower()`: character-wise lowercasing (identical to Lean's
`String.toLower`, but defined by structural recursion so terms reduce). -/
def str_lower (s : String) : String := ⟨s.data.map Char.toLower⟩

/-- `file_search.get_file_category`. -/
def get_file_category (file_type : String) : String :=
  let t := str_lower file_type
  if t = "folder" then "folder"
  else if ["png", "jpg", "jpeg", "gif", "bmp", "webp", "image"].contains t then "image"
  else if ["mp4", "mkv", "mov", "avi", "video"].contains t then "video"
  else if ["mp3", "wav", "flac", "m4a", "audio"].contains t then "audio"
  else if ["zip", "7z", "rar", "tar", "gz"].contains t then "archive"
  else if ["pdf", "ppt", "pptx", "xls", "xlsx", "csv", "md", "txt", "rtf",
           "doc", "docx"].contains t then "document"
  else "file"

/-- `auto_index.get_file_category` (slightly different extension lists; empty
`file_type` short-circuits to `'file'`). -/
def auto_get_file_category (file_type : String) : String :=
  if file_type = "" then "file"
  else
    let t := str_lower file_type
    if t = "folder" then "folder"
    else if ["png", "jpg", "jpeg", "gif", "bmp", "webp", "tiff"].contains t then "image"
    else if ["mp4", "mkv", "mov", "avi", "wmv", "flv", "webm"].contains t then "video"
    else if ["mp3", "wav", "flac", "m4a", "aac", "ogg"].contains t then "audio"
    else if ["zip", "7z", "rar", "tar", "gz"].contains t then "archive"
    else if ["pdf", "ppt", "pptx", "xls", "xlsx", "csv", "md", "txt", "rtf",
             "doc", "docx"].contains t then "document"
    else "file"

/-- Concatenation of the per-character keys (`''.join(prefix_chars)`). -/
def joinKeys : List String → String
  | [] => ""
  | k :: ks => k ++ joinKeys ks

/-- The normalization both `build_search_index` and `search_db` perform on a
name / query: lowercase the string, map every character through `get_value`,
join.  `none` models the uncaught `ValueError` from `get_value`. -/
def norm_key (s : String) : Option String :=
  (mapKeys s.data).map joinKeys

/-- A JSON value nested one level inside a `files_json` array, as far as
`search_db` inspects it: a record object or anything else. -/
inductive JVal where
  | obj (fd : FileData) : JVal
  | other : JVal
  deriving DecidableEq, Repr

/-- A top-level element of a `files_json` array: a record object, an array, or
anything else (e.g. the JSON string `auto_index` puts into fresh rows). -/
inductive JElem where
  | obj (fd : FileData) : JElem
  | arr (l : List JVal) : JElem
  | other : JElem
  deriving DecidableEq, Repr

/-- One row of the `file_index` table. -/
structure Row where
  key : String
  file_extension : String
  file_category : String
  files_json : List JElem
  deriving DecidableEq, Repr

/-- `INSERT INTO file_index ... ON CONFLICT(prefix) DO UPDATE SET files_json =
json_insert(files_json, '$[#]', ...)`: if a row with the key exists, only its
`files_json` array gets the new element appended; otherwise a fresh row is
inserted at the end of the table. -/
def db_upsert (db : List Row) (key ext cat : String)
    (ins : List JElem) (app : JElem) : List Row :=
  if db.any (fun r => r.key = key) then
    db.map (fun r => if r.key = key then { r with files_json := r.files_json ++ [app] } else r)
  else
    db ++ [⟨key, ext, cat, ins⟩]

/-- One iteration of the `build_search_index` loop: empty names are skipped;
the name is lowercased and normalized (`none` = uncaught `ValueError`); the
parameter bound to the fresh row is `json.dumps([file_data.to_dict()])` (a
one-element array) and the `ON CONFLICT` branch appends `json(?)` of that same
parameter, i.e. a nested one-element array. -/
def build_step (db : List Row) (fd : FileData) : Option (List Row) :=
  if fd.file_name = "" then some db
  else
    match norm_key fd.file_name with
    | none => none
    | some key =>
      let ext := if fd.file_type = "" then "unknown" else str_lower fd.file_type
      let cat := get_file_category ext
      some (db_upsert db key ext cat [JElem.obj fd] (JElem.arr [JVal.obj fd]))

/-- `file_search.build_search_index`.  Batching (`executemany` every
`batch_size` records) preserves record order, so the resulting table state is
that of the sequential per-record upserts; an exception aborts the build. -/
def build_search_index (l : List FileData) : Option (List Row) :=
  l.foldlM build_step []

/-- `WHERE prefix LIKE ? AND file_category IN (...)`; the category filter is
only applied when the `categories` argument is a non-empty list (Python
truthiness of `if categories:`). -/
def matchesRow (pre : String) (cats : List String) (r : Row) : Bool :=
  pre.data.isPrefixOf r.key.data && (cats.isEmpty || cats.contains r.file_category)

/-- The record objects a row's `files_json` array contributes when flattened
with no limit: top-level objects, plus objects one level inside arrays. -/
def flattenElem : JElem → List FileData
  | .obj fd => [fd]
  | .arr l => l.filterMap (fun v => match v with | .obj fd => some fd | .other => none)
  | .other => []

def flattenRow (items : List JElem) : List FileData :=
  items.flatMap flattenElem

/-- The inner loop of `search_db` over one row's `files_json`: after each
top-level item the collected list is length-checked against `limit`;
`Sum.inl` is the early `return files`, `Sum.inr` continues with the next row. -/
def scanItems (limit : Nat) (acc : List FileData) :
    List JElem → (List FileData) ⊕ (List FileData)
  | [] => .inr acc
  | item :: rest =>
    if limit ≤ (acc ++ flattenElem item).length then .inl (acc ++ flattenElem item)
    else scanItems limit (acc ++ flattenElem item) rest

/-- The outer loop of `search_db` over the fetched rows. -/
def scanRows (limit : Nat) (acc : List FileData) : List Row → List FileData
  | [] => acc
  | r :: rs =>
    match scanItems limit acc r.files_json with
    | .inl res => res
    | .inr acc' => scanRows limit acc' rs

/-- `file_search.search_db`: empty query short-circuits to `[]`; the query is
lowercased and normalized (`none` = uncaught `ValueError` from `get_value`);
matching rows are scanned in table order, capped at `limit` rows by the SQL
`LIMIT`, and flattened with the per-item limit check. -/
def search_db (query : String) (limit : Nat) (cats : List String)
    (db : List Row) : Option (List FileData) :=
  if query = "" then some []
  else
    match norm_key query with
    | none => none
    | some pre =>
      some (scanRows limit [] ((db.filter (matchesRow pre cats)).take limit))

/-- `search_db` run without a limit cap: the same matching-row scan with no
`LIMIT` and no early stop (the reference point of the prefix-monotonicity
property). -/
def search_db_nolimit (query : String) (cats : List String)
    (db : List Row) : Option (List FileData) :=
  if query = "" then some []
  else
    match norm_key query with
    | none => none
    | some pre =>
      some ((db.filter (matchesRow pre cats)).flatMap (fun r => flattenRow r.files_json))

/-- `auto_index.index_to_file_search_db`: validates the name (returning
`false` without touching the table on invalid characters — the body's
`try/except` also returns `false` on any exception, which covers the
unreachable `ValueError` of `get_value` after validation passed); the fresh
row's `files_json` is `json_array(?)` of an already-serialized JSON *string*
(a one-element array holding a string, not a record object), while the
`ON CONFLICT` branch appends `json(?)`, the record object itself. -/
def index_to_file_search_db (db : List Row) (fd : FileData) : List Row × Bool :=
  if has_valid_characters fd.file_name then
    match norm_key fd.file_name with
    | none => (db, false)
    | some key =>
      let ext := if fd.file_type = "" then "unknown" else str_lower fd.file_type
      let cat := auto_get_file_category fd.file_type
      (db_upsert db key ext cat [JElem.other] (JElem.obj fd), true)
  else (db, false)

/-! ## Image embedding cache (`src/search/image_search.py`)

The embedding vectors, their row-normalization and the CLIP scorer are opaque
to the core (the spec treats the models as external scorers), so they are
parameters: `V` is the vector type, `normRows` is the `np.linalg.norm`-based
row normalization, and `scorer` is tokenize/encode/dot-product/argsort-desc.
`time.time()` is an explicit `now` argument. -/

/-- The module-level globals of `image_search.py`. -/
structure ImgCache (V : Type) where
  image_embeddings : Option (List V)
  image_paths : Option (List String)
  embeddings_loaded : Bool
  last_access_time : Option Nat
  deriving Repr

/-- The initial module state: nothing loaded. -/
def ImgCache.init (V : Type) : ImgCache V :=
  ⟨none, none, false, none⟩

/-- `image_search.is_embeddings_loaded`. -/
def is_embeddings_loaded {V : Type} (st : ImgCache V) : Bool :=
  st.embeddings_loaded

/-- `image_search.load_embeddings`.  The store is `none` when the database
file or its `embeddings` table is missing: `sqlite3.connect` then creates an
empty schema-less database and the `SELECT` raises
`sqlite3.OperationalError: no such table` (modelled as result `none`).  An
existing but empty table returns `(None, None)` leaving the state unchanged.
The inactivity`threading.Timer` of `schedule_unload` has no effect on the
returned state and is not modelled. -/
def load_embeddings {V : Type} (normRows : List V → List V)
    (store : Option (List (String × V))) (now : Nat) (st : ImgCache V) :
    Option (ImgCache V × (Option (List V) × Option (List String))) :=
  if st.embeddings_loaded then
    some ({ st with last_access_time := some now },
          (st.image_embeddings, st.image_paths))
  else
    match store with
    | none => none
    | some rows =>
      if rows.isEmpty then some (st, (none, none))
      else
        let paths := rows.map (fun r => r.1)
        let emb := normRows (rows.map (fun r => r.2))
        some (⟨some emb, some paths, true, some now⟩, (some emb, some paths))

/-- `image_search.search_images`: loads on demand; `(None, None)` from the
loader yields `[]` without touching the scorer or the access time; otherwise
the access time is refreshed and the scorer's descending ranking is cut to
`limit`. -/
def search_images {V : Type} (normRows : List V → List V)
    (scorer : String → List V → List String → List String)
    (store : Option (List (String × V))) (now : Nat) (st : ImgCache V)
    (query : String) (limit : Nat) :
    Option (ImgCache V × List String) :=
  match load_embeddings normRows store now st with
  | none => none
  | some (st', (embOpt, pathsOpt)) =>
    match embOpt, pathsOpt with
    | some emb, some paths =>
      some ({ st' with last_access_time := some now },
            (scorer query emb paths).take limit)
    | _, _ => some (st', [])

/-! ## Verification artifacts (not part of the source program) -/

/-- Inverse reading of the named canonical keys (digit and symbol names). -/
def key_char_table (s : String) : Option Char :=
  if s = "num0" then some '0' else if s = "num1" then some '1'
  else if s = "num2" then some '2' else if s = "num3" then some '3'
  else if s = "num4" then some '4' else if s = "num5" then some '5'
  else if s = "num6" then some '6' else if s = "num7" then some '7'
  else if s = "num8" then some '8' else if s = "num9" then some '9'
  else if s = "space" then some ' ' else if s = "exclamation" then some '!'
  else if s = "hash" then some '#' else if s = "dollar" then some '$'
  else if s = "percent" then some '%' else if s = "ampersand" then some '&'
  else if s = "apostrophe" then some '\x27' else if s = "dot" then some '.'
  else if s = "lparen" then some '(' else if s = "rparen" then some ')'
  else if s = "plus" then some '+' else if s = "comma" then some ','
  else if s = "dash" then some '-' else if s = "semicolon" then some ';'
  else if s = "equals" then some '=' else if s = "at" then some '@'
  else if s = "lbracket" then some '[' else if s = "rbracket" then some ']'
  else if s = "caret" then some '^' else if s = "underscore" then some '_'
  else if s = "backtick" then some '\x60' else if s = "lbrace" then some '\x7b'
  else if s = "rbrace" then some '\x7d' else if s = "tilde" then some '~'
  else none

/-- Inverse reading of a canonical key: a one-character key denotes that
character, the named keys their digit or symbol (all named keys have at least
two characters, so the two cases do not overlap). -/
def key_char (s : String) : Option Char :=
  match s.data with
  | [c] => some c
  | _ => key_char_table s

/-- A `files_json` element as the repository's two writers produce it: any
nested array has at most one element (`build_search_index` appends
`json('[<dict>]')`, a one-element array; `index_to_file_search_db` appends a
plain object). -/
def wfElem : JElem → Bool
  | .arr l => l.length ≤ 1
  | _ => true

/-- Monotone-membership invariant of the root forest: a record found at the
end of a longer key path is also found at every nonempty shorter path towards
it.  `build_trees` establishes this for every state it produces. -/
def RootsMono (roots : Roots) : Prop :=
  ∀ (k : String) (q₁ q₂ : List String) (x : FileData), q₁ ≠ [] → q₁ <+: q₂ →
    x ∈ filesAt (roots k) q₂ → x ∈ filesAt (roots k) q₁

/-- `x` is among the results of `search_tree roots p` (which in particular
did not raise). -/
def memSearchTree (x : FileData) (roots : Roots) (p : String) : Prop :=
  match search_tree roots p with
  | none => False
  | some res => x ∈ res

/-- `x` is among the results of the uncapped durable-index scan for `q`. -/
def memSearchDbNolimit (x : FileData) (q : String) (cats : List String)
    (db : List Row) : Prop :=
  match search_db_nolimit q cats db with
  | none => False
  | some res => x ∈ res

/-- The trie round-trip at one name: build the forest from the single record
for `n` and check that querying the full name returns it (false as well when
building or querying raises). -/
def trie_roundtrip (n p t : String) : Bool :=
  match build_trees [mkFileData n p t] with
  | none => false
  | some roots =>
    match search_tree roots n with
    | none => false
    | some res => res.contains (mkFileData n p t)

/-- The durable batch build succeeds and every record with a nonempty name
ends up in some row of the index (false as well when the build raises). -/
def allRecordsIndexed (l : List FileData) : Bool :=
  match build_search_index l with
  | none => false
  | some d =>
    l.all (fun fd => (fd.file_name = "") ||
      d.any (fun r => (flattenRow r.files_json).contains fd))

/-! ### Concrete records used by the example-scenario theorems -/

def c1rec1 : FileData := mkFileData "report.pdf" "C:/Documents/report.pdf" "pdf"

def c1rec2 : FileData := mkFileData "Report.PDF" "C:/Downloads/Report.PDF" "pdf"

/-- The single row `build_search_index [c1rec1, c1rec2]` produces. -/
def c1row : Row :=
  ⟨"reportdotpdf", "pdf", "document", [JElem.obj c1rec1, JElem.arr [JVal.obj c1rec2]]⟩

def abRec : FileData := mkFileData "ab" "C:/ab" "txt"

def abcRec : FileData := mkFileData "abc" "C:/abc" "txt"

def abcRoots : Roots := (build_trees [abcRec]).getD initRoots

def c7rec1 : FileData := mkFileData "ab" "C:/x/ab" "txt"

def c7rec2 : FileData := mkFileData "ab" "C:/y/ab" "txt"

/-- A table state with a two-element nested array — not producible by this
repository's writers, but a syntactically valid `files_json`. -/
def c7row : Row := ⟨"ab", "txt", "file", [JElem.arr [JVal.obj c7rec1, JVal.obj c7rec2]]⟩

/-- A table state of the shape the writers produce (nested arrays are
singletons). -/
def c7wfrow : Row :=
  ⟨"ab", "txt", "file", [JElem.obj c7rec1, JElem.arr [JVal.obj c7rec2]]⟩

def c8rec : FileData := mkFileData "a.txt" "C:/2/a.txt" "txt"

def c8row : Row :=
  ⟨"adottxt", "txt", "document", [JElem.obj (mkFileData "a.txt" "C:/1/a.txt" "txt")]⟩

/-! # Theorems -/

/-! ## Key normalizer lemmas -/

theorem key_char_get_value {c : Char} {k : String} (h : get_value c = some k) :
    key_char k = some c.toLower := by
  unfold get_value at h
  by_cases ha : c.isAlpha
  · rw [if_pos ha] at h
    injection h with h
    subst h
    rfl
  · rw [if_neg ha] at h
    rcases hD : DIGIT_MAP c with _ | s
    · rw [hD] at h
      dsimp only at h
      unfold SYMBOL_MAP at h
      split at h <;> (try simp_all) <;> subst_vars <;> decide
    · rw [hD] at h
      dsimp only at h
      injection h with h
      subst h
      unfold DIGIT_MAP at hD
      split at hD <;> (try simp_all) <;> subst_vars <;> decide

theorem mapKeys_append (l₁ l₂ : List Char) :
    mapKeys (l₁ ++ l₂) =
      (mapKeys l₁).bind (fun a => (mapKeys l₂).map (fun b => a ++ b)) := by
  induction l₁ with
  | nil => cases h : mapKeys l₂ <;> simp [mapKeys, h]
  | cons c cs ih =>
    simp only [List.cons_append, mapKeys, List.append_eq]
    cases hg : get_value c.toLower <;> simp only [hg]
    · simp
    · rw [ih]
      cases hc : mapKeys cs <;> cases hl : mapKeys l₂ <;> simp

theorem joinKeys_append (a b : List String) :
    joinKeys (a ++ b) = joinKeys a ++ joinKeys b := by
  induction a with
  | nil => simp [joinKeys]
  | cons k ks ih => simp [joinKeys, ih, String.append_assoc]

theorem mapKeys_isSome (l : List Char)
    (h : ∀ c ∈ l, (get_value c.toLower).isSome) : ∃ ks, mapKeys l = some ks := by
  induction l with
  | nil => exact ⟨[], rfl⟩
  | cons c cs ih =>
    obtain ⟨k, hk⟩ := Option.isSome_iff_exists.mp (h c (by simp))
    obtain ⟨ks, hks⟩ := ih (fun x hx => h x (by simp [hx]))
    exact ⟨k :: ks, by simp [mapKeys, hk, hks]⟩

theorem mapKeys_cons_ne_nil {c : Char} {cs : List Char} {ks : List String}
    (h : mapKeys (c :: cs) = some ks) : ks ≠ [] := by
  unfold mapKeys at h
  cases hg : get_value c.toLower <;> rw [hg] at h
  · cases h
  · cases hc : mapKeys cs <;> rw [hc] at h
    · cases h
    · injection h with h
      subst h
      simp

/-- Normalizing a string prefix yields a prefix of the normalized key. -/
theorem norm_key_of_prefix {p₁ p₂ k₂ : String}
    (hp : p₁.data <+: p₂.data) (h₂ : norm_key p₂ = some k₂) :
    ∃ k₁, norm_key p₁ = some k₁ ∧ k₁.data <+: k₂.data ∧
      ∃ a b, mapKeys p₁.data = some a ∧ mapKeys p₂.data = some (a ++ b) := by
  obtain ⟨t, ht⟩ := hp
  unfold norm_key at h₂ ⊢
  rw [← ht, mapKeys_append] at h₂
  rcases h₁ : mapKeys p₁.data with _ | a
  · rw [h₁] at h₂; cases h₂
  · rw [h₁] at h₂
    rcases hT : mapKeys t with _ | b
    · rw [hT] at h₂; cases h₂
    · rw [hT] at h₂
      simp at h₂
      refine ⟨joinKeys a, rfl, ?_, a, b, rfl, by rw [← ht, mapKeys_append, h₁, hT]; rfl⟩
      rw [← h₂, joinKeys_append, String.data_append]
      exact List.prefix_append _ _

/-! ## Trie lemmas -/

theorem lookupChild_setAssoc_self (cs : List (String × Trie)) (k : String) (c : Trie) :
    lookupChild (setAssoc cs k c) k = some c := by
  induction cs with
  | nil => simp [setAssoc, lookupChild]
  | cons p rest ih =>
    obtain ⟨q, c'⟩ := p
    by_cases h : q = k
    · simp [setAssoc, h, lookupChild]
    · simp [setAssoc, h, lookupChild, ih]

theorem lookupChild_setAssoc_ne (cs : List (String × Trie)) {k j : String}
    (c : Trie) (h : j ≠ k) :
    lookupChild (setAssoc cs k c) j = lookupChild cs j := by
  induction cs with
  | nil => simp [setAssoc, lookupChild, Ne.symm h]
  | cons p rest ih =>
    obtain ⟨q, c'⟩ := p
    by_cases hq : q = k
    · subst hq
      simp [setAssoc, lookupChild, Ne.symm h]
    · simp [setAssoc, hq, lookupChild, ih]

theorem insertPath_files (keys : List String) (t : Trie) (fd : FileData) :
    (insertPath t keys fd).files = t.files := by
  cases keys with
  | nil => rfl
  | cons k ks => cases h : lookupChild t.children k <;> simp [insertPath, h, setChild, Trie.files]

theorem filesAt_nil (t : Trie) : filesAt t [] = t.files := rfl

theorem filesAt_cons (f : List FileData) (cs : List (String × Trie))
    (y : String) (ys : List String) :
    filesAt (.node f cs) (y :: ys) =
      (match lookupChild cs y with
       | none => []
       | some c => filesAt c ys) := by
  cases h : lookupChild cs y <;> simp [filesAt, walk, Trie.children, h]

theorem filesAt_setChild_self (t : Trie) (k : String) (x : Trie) (ys : List String) :
    filesAt (setChild t k x) (k :: ys) = filesAt x ys := by
  rw [show setChild t k x = Trie.node t.files (setAssoc t.children k x) from rfl,
      filesAt_cons, lookupChild_setAssoc_self]

theorem filesAt_setChild_ne {k j : String} (t : Trie) (x : Trie) (h : j ≠ k)
    (ys : List String) :
    filesAt (setChild t k x) (j :: ys) = filesAt t (j :: ys) := by
  cases t with
  | node f cs =>
    rw [show setChild (Trie.node f cs) k x = Trie.node f (setAssoc cs k x) from rfl,
        filesAt_cons, filesAt_cons, lookupChild_setAssoc_ne _ _ h]

theorem filesAt_cons_of_lookup_none {t : Trie} {y : String} {ys : List String}
    (h : lookupChild t.children y = none) : filesAt t (y :: ys) = [] := by
  cases t with
  | node f cs =>
    rw [filesAt_cons]
    simp only [Trie.children] at h
    rw [h]

theorem filesAt_cons_of_lookup_some {t : Trie} {y : String} {ys : List String}
    {c : Trie} (h : lookupChild t.children y = some c) :
    filesAt t (y :: ys) = filesAt c ys := by
  cases t with
  | node f cs =>
    rw [filesAt_cons]
    simp only [Trie.children] at h
    rw [h]

theorem filesAt_files_irrel (f : List FileData) (c : Trie) (y : String)
    (ys : List String) :
    filesAt (.node f c.children) (y :: ys) = filesAt c (y :: ys) := by
  cases c with
  | node g cs =>
    rw [filesAt_cons, filesAt_cons]
    rfl

/-- Effect of one record insertion on the records found at a nonempty key
path: the record is appended exactly when the path is a prefix of the
inserted key sequence. -/
theorem isPrefixOf_cons_cons (a b : String) (as bs : List String) :
    (a :: as).isPrefixOf (b :: bs) = (a == b && as.isPrefixOf bs) := rfl

theorem filesAt_insertPath (keys : List String) (fd : FileData) :
    ∀ (t : Trie) (q : List String), q ≠ [] →
      filesAt (insertPath t keys fd) q =
        filesAt t q ++ (if q.isPrefixOf keys then [fd] else []) := by
  induction keys with
  | nil =>
    intro t q hq
    cases q with
    | nil => exact absurd rfl hq
    | cons j js => simp [insertPath, List.isPrefixOf]
  | cons k ks ih =>
    intro t q hq
    cases q with
    | nil => exact absurd rfl hq
    | cons j js =>
      by_cases hj : j = k
      · subst hj
        cases hc : lookupChild t.children j with
        | none =>
          simp only [insertPath, hc]
          rw [filesAt_setChild_self]
          cases js with
          | nil =>
            rw [filesAt_nil, insertPath_files, filesAt_cons_of_lookup_none hc]
            simp [Trie.files, isPrefixOf_cons_cons, List.isPrefixOf]
          | cons y ys =>
            rw [ih _ (y :: ys) (by simp), filesAt_cons_of_lookup_none hc, filesAt_cons]
            simp [lookupChild, isPrefixOf_cons_cons]
        | some c =>
          simp only [insertPath, hc]
          rw [filesAt_setChild_self]
          cases js with
          | nil =>
            rw [filesAt_nil, insertPath_files, filesAt_cons_of_lookup_some hc, filesAt_nil]
            simp [Trie.files, isPrefixOf_cons_cons, List.isPrefixOf]
          | cons y ys =>
            rw [ih _ (y :: ys) (by simp), filesAt_files_irrel,
                filesAt_cons_of_lookup_some hc]
            simp [isPrefixOf_cons_cons]
      · cases hck : lookupChild t.children k <;>
          simp only [insertPath, hck] <;>
          rw [filesAt_setChild_ne _ _ hj] <;>
          simp [isPrefixOf_cons_cons, hj]

theorem eq_empty_of_data_nil {s : String} (h : s.data = []) : s = "" := by
  cases s
  simp_all

theorem allowed_get_value :
    ALLOWED.all (fun c => (get_value c.toLower).isSome) = true := by decide

theorem check_letters_valid {s : String} (h : check_letters s = true) :
    ∀ c ∈ s.data, (get_value c.toLower).isSome := by
  intro c hc
  have h1 := List.all_eq_true.mp h c hc
  have h2 : c ∈ ALLOWED := by simpa using h1
  exact List.all_eq_true.mp allowed_get_value c h2

theorem filesAt_root_files_append (t : Trie) (fd : FileData) {q : List String}
    (hq : q ≠ []) :
    filesAt (.node (t.files ++ [fd]) t.children) q = filesAt t q := by
  cases q with
  | nil => exact absurd rfl hq
  | cons y ys => exact filesAt_files_irrel _ t y ys

theorem walkChars_of_mapKeys {cs : List Char} {ks : List String}
    (h : mapKeys cs = some ks) :
    ∀ t : Trie, walkChars t cs = some (filesAt t ks) := by
  induction cs generalizing ks with
  | nil =>
    intro t
    unfold mapKeys at h
    injection h with h
    subst h
    rfl
  | cons c cs ih =>
    intro t
    unfold mapKeys at h
    cases hg : get_value c.toLower <;> rw [hg] at h
    · cases h
    · cases hm : mapKeys cs <;> rw [hm] at h
      · cases h
      · injection h with h
        subst h
        simp only [walkChars, hg]
        cases hc : lookupChild t.children _ with
        | none => rw [filesAt_cons_of_lookup_none hc]
        | some child => rw [filesAt_cons_of_lookup_some hc]; exact ih hm child

theorem walkChars_cases {cs : List Char} : ∀ {t : Trie} {res : List FileData},
    walkChars t cs = some res →
    res = [] ∨ ∃ ks, mapKeys cs = some ks ∧ res = filesAt t ks := by
  induction cs with
  | nil =>
    intro t res h
    injection h with h
    exact Or.inr ⟨[], rfl, h.symm⟩
  | cons c cs ih =>
    intro t res h
    unfold walkChars at h
    cases hg : get_value c.toLower with
    | none => rw [hg] at h; cases h
    | some k =>
      rw [hg] at h
      dsimp only at h
      cases hc : lookupChild t.children k <;> rw [hc] at h
      · left
        injection h with h
        exact h.symm
      · rcases ih h with hres | ⟨ks, hks, hres⟩
        · exact Or.inl hres
        · refine Or.inr ⟨k :: ks, by simp [mapKeys, hg, hks], ?_⟩
          rw [hres, filesAt_cons_of_lookup_some hc]

theorem mapKeys_prefix {a b : List Char} {ks : List String} (hp : a <+: b)
    (h : mapKeys b = some ks) :
    ∃ ks₁, mapKeys a = some ks₁ ∧ ks₁ <+: ks := by
  obtain ⟨t, ht⟩ := hp
  rw [← ht, mapKeys_append] at h
  cases h₁ : mapKeys a <;> rw [h₁] at h
  · cases h
  · cases hT : mapKeys t <;> rw [hT] at h
    · cases h
    · simp only [Option.bind_some, Option.map_some'] at h
      injection h with h
      exact ⟨_, rfl, h ▸ List.prefix_append _ _⟩

theorem initRoots_mono : RootsMono initRoots := by
  intro k q₁ q₂ x hq₁ hpre hx
  cases q₂ with
  | nil => exact absurd (List.prefix_nil.mp hpre) hq₁
  | cons y ys =>
    have hnone : lookupChild (initRoots k).children y = none := rfl
    rw [filesAt_cons_of_lookup_none hnone] at hx
    exact absurd hx (List.not_mem_nil x)

theorem build_trees_step_mono {roots roots' : Roots} {fd : FileData}
    (hm : RootsMono roots) (hs : build_trees_step roots fd = some roots') :
    RootsMono roots' := by
  unfold build_trees_step at hs
  by_cases hcl : check_letters fd.file_name
  · rw [if_pos hcl] at hs
    cases hn : fd.file_name.data with
    | nil => rw [hn] at hs; cases hs
    | cons c cs =>
      rw [hn] at hs
      dsimp only at hs
      cases hg : get_value c.toLower with
      | none => rw [hg] at hs; cases hs
      | some k0 =>
        rw [hg] at hs
        dsimp only at hs
        cases hmk : mapKeys cs with
        | none => rw [hmk] at hs; cases hs
        | some rest =>
          rw [hmk] at hs
          dsimp only at hs
          injection hs with hs
          subst hs
          intro k q₁ q₂ x hq₁ hpre hx
          dsimp only at hx ⊢
          have hq₂ : q₂ ≠ [] := by
            intro h
            subst h
            exact hq₁ (List.prefix_nil.mp hpre)
          by_cases hk : k = k0
          · subst hk
            rw [if_pos rfl] at hx ⊢
            by_cases hr : rest = []
            · rw [if_pos hr] at hx ⊢
              rw [filesAt_root_files_append _ _ hq₂] at hx
              rw [filesAt_root_files_append _ _ hq₁]
              exact hm _ q₁ q₂ x hq₁ hpre hx
            · rw [if_neg hr] at hx ⊢
              rw [filesAt_insertPath rest fd _ q₂ hq₂] at hx
              rw [filesAt_insertPath rest fd _ q₁ hq₁]
              rcases List.mem_append.mp hx with h | h
              · exact List.mem_append_left _ (hm _ q₁ q₂ x hq₁ hpre h)
              · by_cases hp2 : q₂.isPrefixOf rest
                · rw [if_pos hp2] at h
                  have hp1 : q₁.isPrefixOf rest := by
                    have h2 := List.isPrefixOf_iff_prefix.mp hp2
                    exact List.isPrefixOf_iff_prefix.mpr (hpre.trans h2)
                  refine List.mem_append_right _ ?_
                  rw [if_pos hp1]
                  exact h
                · rw [if_neg hp2] at h
                  exact absurd h (List.not_mem_nil x)
          · rw [if_neg hk] at hx ⊢
            exact hm k q₁ q₂ x hq₁ hpre hx
  · rw [if_neg hcl] at hs
    injection hs with hs
    subst hs
    exact hm

theorem foldlM_build_trees_mono :
    ∀ (l : List FileData) (r₀ : Roots), RootsMono r₀ →
      ∀ {r : Roots}, List.foldlM build_trees_step r₀ l = some r → RootsMono r := by
  intro l
  induction l with
  | nil =>
    intro r₀ h₀ r hr
    rw [List.foldlM_nil] at hr
    injection hr with hr
    subst hr
    exact h₀
  | cons fd tl ih =>
    intro r₀ h₀ r hr
    rw [List.foldlM_cons] at hr
    cases hs : build_trees_step r₀ fd <;> rw [hs] at hr
    · cases hr
    · exact ih _ (build_trees_step_mono h₀ hs) hr

theorem build_trees_mono {l : List FileData} {roots : Roots}
    (h : build_trees l = some roots) : RootsMono roots :=
  foldlM_build_trees_mono l initRoots initRoots_mono h

/-- Prefix monotonicity of `search_tree` on any state `build_trees` produced,
for query strings of length at least two. -/
theorem search_tree_mono {l : List FileData} {roots : Roots} {p₁ p₂ : String}
    {res₂ : List FileData} {x : FileData}
    (hb : build_trees l = some roots) (hpre : p₁.data <+: p₂.data)
    (hlen : 2 ≤ p₁.length) (h₂ : search_tree roots p₂ = some res₂)
    (hx : x ∈ res₂) :
    ∃ res₁, search_tree roots p₁ = some res₁ ∧ x ∈ res₁ := by
  have hmono := build_trees_mono hb
  cases hd₁ : p₁.data with
  | nil =>
    exfalso
    have : p₁.length = 0 := by
      show p₁.data.length = 0
      rw [hd₁]
      rfl
    omega
  | cons c cs₁ =>
    have hcs₁ : cs₁ ≠ [] := by
      intro h
      subst h
      have : p₁.length = 1 := by
        show p₁.data.length = 1
        rw [hd₁]
        rfl
      omega
    obtain ⟨t, ht⟩ := hpre
    have hd₂ : p₂.data = c :: (cs₁ ++ t) := by rw [← ht, hd₁]; rfl
    have hp₂ne : p₂ ≠ "" := by
      intro h
      rw [h] at hd₂
      cases hd₂
    have hp₁ne : p₁ ≠ "" := by
      intro h
      rw [h] at hd₁
      cases hd₁
    unfold search_tree at h₂
    rw [if_neg hp₂ne] at h₂
    rw [hd₂] at h₂
    dsimp only at h₂
    cases hg : get_value c.toLower with
    | none => rw [hg] at h₂; cases h₂
    | some k0 =>
      rw [hg] at h₂
      dsimp only at h₂
      rcases walkChars_cases h₂ with hres | ⟨ks₂, hks₂, hres⟩
      · subst hres
        exact absurd hx (List.not_mem_nil x)
      · subst hres
        obtain ⟨ks₁, hks₁, hkpre⟩ := mapKeys_prefix ⟨t, rfl⟩ hks₂
        have hks₁ne : ks₁ ≠ [] := by
          cases cs₁ with
          | nil => exact absurd rfl hcs₁
          | cons a as => exact mapKeys_cons_ne_nil hks₁
        have hx₁ : x ∈ filesAt (roots k0) ks₁ :=
          hmono k0 ks₁ ks₂ x hks₁ne hkpre hx
        refine ⟨filesAt (roots k0) ks₁, ?_, hx₁⟩
        unfold search_tree
        rw [if_neg hp₁ne, hd₁]
        dsimp only
        rw [hg]
        dsimp only
        exact walkChars_of_mapKeys hks₁ (roots k0)

/-! ## Durable index lemmas -/

theorem scanItems_subset (limit : Nat) :
    ∀ (items : List JElem) (acc : List FileData) (x : FileData),
      x ∈ (match scanItems limit acc items with | .inl r => r | .inr r => r) →
      x ∈ acc ++ flattenRow items := by
  intro items
  induction items with
  | nil =>
    intro acc x hx
    simp only [scanItems] at hx
    simpa [flattenRow] using hx
  | cons item rest ih =>
    intro acc x hx
    unfold scanItems at hx
    by_cases hlim : limit ≤ (acc ++ flattenElem item).length
    · rw [if_pos hlim] at hx
      simp only [flattenRow, List.flatMap_cons, List.mem_append] at hx ⊢
      rcases hx with hx | hx
      · exact Or.inl hx
      · exact Or.inr (Or.inl hx)
    · rw [if_neg hlim] at hx
      have h2 := ih (acc ++ flattenElem item) x hx
      simp only [flattenRow, List.flatMap_cons, List.mem_append] at h2 ⊢
      tauto

theorem scanRows_mem (limit : Nat) :
    ∀ (rows : List Row) (acc : List FileData) (x : FileData),
      x ∈ scanRows limit acc rows →
      x ∈ acc ∨ ∃ r ∈ rows, x ∈ flattenRow r.files_json := by
  intro rows
  induction rows with
  | nil =>
    intro acc x hx
    exact Or.inl (by simpa [scanRows] using hx)
  | cons r rs ih =>
    intro acc x hx
    unfold scanRows at hx
    cases hscan : scanItems limit acc r.files_json <;> rw [hscan] at hx
    · have h2 := scanItems_subset limit r.files_json acc x (by rw [hscan]; exact hx)
      rcases List.mem_append.mp h2 with h | h
      · exact Or.inl h
      · exact Or.inr ⟨r, by simp, h⟩
    · rcases ih _ x hx with h | ⟨r', hr', hx'⟩
      · have h2 := scanItems_subset limit r.files_json acc x (by rw [hscan]; exact h)
        rcases List.mem_append.mp h2 with h' | h'
        · exact Or.inl h'
        · exact Or.inr ⟨r, by simp, h'⟩
      · exact Or.inr ⟨r', by simp [hr'], hx'⟩

/-- Prefix monotonicity of `search_db` against the uncapped scan, for
nonempty query strings, over an arbitrary table state. -/
theorem search_db_mono {p₁ p₂ : String} {limit : Nat} {cats : List String}
    {db : List Row} {res₂ : List FileData} {x : FileData}
    (hne : p₁ ≠ "") (hpre : p₁.data <+: p₂.data)
    (h₂ : search_db p₂ limit cats db = some res₂) (hx : x ∈ res₂) :
    ∃ res₁, search_db_nolimit p₁ cats db = some res₁ ∧ x ∈ res₁ := by
  have hp₂ne : p₂ ≠ "" := by
    intro h
    subst h
    exact hne (eq_empty_of_data_nil (List.prefix_nil.mp hpre))
  unfold search_db at h₂
  rw [if_neg hp₂ne] at h₂
  cases hk₂ : norm_key p₂ with
  | none => rw [hk₂] at h₂; cases h₂
  | some k₂ =>
    rw [hk₂] at h₂
    dsimp only at h₂
    injection h₂ with h₂
    obtain ⟨k₁, hk₁, hkpre, -⟩ := norm_key_of_prefix hpre hk₂
    refine ⟨(db.filter (matchesRow k₁ cats)).flatMap (fun r => flattenRow r.files_json),
      ?_, ?_⟩
    · unfold search_db_nolimit
      rw [if_neg hne, hk₁]
    · subst h₂
      rcases scanRows_mem limit _ [] x hx with h | ⟨r, hr, hxr⟩
      · exact absurd h (List.not_mem_nil x)
      · have hr' : r ∈ db.filter (matchesRow k₂ cats) := List.mem_of_mem_take hr
        obtain ⟨hrdb, hmatch⟩ := List.mem_filter.mp hr'
        unfold matchesRow at hmatch
        obtain ⟨hlike, hcat⟩ := (Bool.and_eq_true _ _).mp hmatch
        have hlike₁ : k₁.data.isPrefixOf r.key.data = true :=
          List.isPrefixOf_iff_prefix.mpr
            (hkpre.trans (List.isPrefixOf_iff_prefix.mp hlike))
        exact List.mem_flatMap.mpr
          ⟨r, List.mem_filter.mpr ⟨hrdb, by unfold matchesRow; rw [hlike₁, hcat]; rfl⟩, hxr⟩

theorem flattenElem_length_le {e : JElem} (h : wfElem e = true) :
    (flattenElem e).length ≤ 1 := by
  cases e with
  | obj fd => simp [flattenElem]
  | arr l =>
    simp only [wfElem] at h
    have h1 := List.length_filterMap_le
      (fun v => match v with | JVal.obj fd => some fd | JVal.other => none) l
    have h2 : l.length ≤ 1 := by simpa using h
    simp only [flattenElem]
    omega
  | other => simp [flattenElem]

theorem scanItems_bound (limit : Nat) :
    ∀ (items : List JElem) (acc : List FileData),
      acc.length < limit → (∀ e ∈ items, wfElem e = true) →
      (match scanItems limit acc items with
       | .inl res => res.length ≤ limit
       | .inr acc' => acc'.length < limit) := by
  intro items
  induction items with
  | nil =>
    intro acc hacc _
    simpa [scanItems] using hacc
  | cons item rest ih =>
    intro acc hacc hwf
    unfold scanItems
    by_cases hlim : limit ≤ (acc ++ flattenElem item).length
    · rw [if_pos hlim]
      have h1 : (flattenElem item).length ≤ 1 := flattenElem_length_le (hwf item (by simp))
      simp only [List.length_append]
      simp only [List.length_append] at hlim
      omega
    · rw [if_neg hlim]
      exact ih _ (by omega) (fun e he => hwf e (by simp [he]))

theorem scanRows_bound (limit : Nat) :
    ∀ (rows : List Row) (acc : List FileData),
      acc.length < limit →
      (∀ r ∈ rows, ∀ e ∈ r.files_json, wfElem e = true) →
      (scanRows limit acc rows).length ≤ limit := by
  intro rows
  induction rows with
  | nil =>
    intro acc hacc _
    simpa [scanRows] using Nat.le_of_lt hacc
  | cons r rs ih =>
    intro acc hacc hwf
    unfold scanRows
    have hb := scanItems_bound limit r.files_json acc hacc (hwf r (by simp))
    cases hscan : scanItems limit acc r.files_json <;> rw [hscan] at hb
    · exact hb
    · exact ih _ hb (fun r' hr' => hwf r' (by simp [hr']))

/-- `search_db` returns at most `limit` records whenever the table's nested
arrays are at most singletons. -/
theorem search_db_length_le {q : String} {limit : Nat} {cats : List String}
    {db : List Row} {res : List FileData}
    (hlim : 1 ≤ limit) (hwf : ∀ r ∈ db, ∀ e ∈ r.files_json, wfElem e = true)
    (h : search_db q limit cats db = some res) : res.length ≤ limit := by
  unfold search_db at h
  by_cases hq : q = ""
  · rw [if_pos hq] at h
    injection h with h
    subst h
    simp
  · rw [if_neg hq] at h
    cases hk : norm_key q <;> rw [hk] at h
    · cases h
    · dsimp only at h
      injection h with h
      subst h
      refine scanRows_bound limit _ [] (by simpa using hlim) ?_
      intro r hr e he
      exact hwf r (List.mem_of_mem_filter (List.mem_of_mem_take hr)) e he

theorem db_upsert_wf {db : List Row} {key ext cat : String} {ins : List JElem}
    {app : JElem} (hins : ∀ e ∈ ins, wfElem e = true) (happ : wfElem app = true)
    (hdb : ∀ r ∈ db, ∀ e ∈ r.files_json, wfElem e = true) :
    ∀ r ∈ db_upsert db key ext cat ins app, ∀ e ∈ r.files_json, wfElem e = true := by
  intro r hr e he
  unfold db_upsert at hr
  by_cases hc : db.any (fun r => r.key = key) = true
  · rw [if_pos hc] at hr
    obtain ⟨r₀, hr₀, hfr⟩ := List.mem_map.mp hr
    by_cases hk : r₀.key = key
    · rw [if_pos hk] at hfr
      subst hfr
      rcases List.mem_append.mp he with h | h
      · exact hdb r₀ hr₀ e h
      · rw [List.mem_singleton.mp h]
        exact happ
    · rw [if_neg hk] at hfr
      subst hfr
      exact hdb r₀ hr₀ e he
  · rw [if_neg hc] at hr
    rcases List.mem_append.mp hr with h | h
    · exact hdb r h e he
    · rw [List.mem_singleton.mp h] at he
      exact hins e he

theorem build_step_wf {db db' : List Row} {fd : FileData}
    (hdb : ∀ r ∈ db, ∀ e ∈ r.files_json, wfElem e = true)
    (h : build_step db fd = some db') :
    ∀ r ∈ db', ∀ e ∈ r.files_json, wfElem e = true := by
  unfold build_step at h
  by_cases hn : fd.file_name = ""
  · rw [if_pos hn] at h
    injection h with h
    subst h
    exact hdb
  · rw [if_neg hn] at h
    cases hk : norm_key fd.file_name <;> rw [hk] at h
    · cases h
    · dsimp only at h
      injection h with h
      subst h
      refine db_upsert_wf ?_ rfl hdb
      intro e he
      rw [List.mem_singleton.mp he]
      rfl

theorem foldlM_build_wf :
    ∀ (l : List FileData) (d₀ : List Row),
      (∀ r ∈ d₀, ∀ e ∈ r.files_json, wfElem e = true) →
      ∀ {d : List Row}, List.foldlM build_step d₀ l = some d →
      ∀ r ∈ d, ∀ e ∈ r.files_json, wfElem e = true := by
  intro l
  induction l with
  | nil =>
    intro d₀ h₀ d hd
    rw [List.foldlM_nil] at hd
    injection hd with hd
    subst hd
    exact h₀
  | cons fd tl ih =>
    intro d₀ h₀ d hd
    rw [List.foldlM_cons] at hd
    cases hs : build_step d₀ fd <;> rw [hs] at hd
    · cases hd
    · exact ih _ (build_step_wf h₀ hs) hd

theorem build_search_index_wf {l : List FileData} {d : List Row}
    (h : build_search_index l = some d) :
    ∀ r ∈ d, ∀ e ∈ r.files_json, wfElem e = true :=
  foldlM_build_wf l [] (by simp) h

/-- A record whose name does not normalize makes the whole batch build raise
(`ValueError` from `get_value` is uncaught in `build_search_index`). -/
theorem build_abort_aux :
    ∀ (l : List FileData) (d₀ : List Row) (fd : FileData), fd ∈ l →
      fd.file_name ≠ "" → norm_key fd.file_name = none →
      List.foldlM build_step d₀ l = none := by
  intro l
  induction l with
  | nil =>
    intro d₀ fd h
    cases h
  | cons y ys ih =>
    intro d₀ fd hmem hne hnorm
    rw [List.foldlM_cons]
    rcases List.mem_cons.mp hmem with h | h
    · subst h
      have hstep : build_step d₀ fd = none := by
        unfold build_step
        rw [if_neg hne, hnorm]
      rw [hstep]
      rfl
    · cases hs : build_step d₀ y
      · rfl
      · exact ih _ fd h hne hnorm

theorem db_upsert_mem_new (db : List Row) (key ext cat : String) (fd : FileData) :
    ∃ r ∈ db_upsert db key ext cat [JElem.obj fd] (JElem.arr [JVal.obj fd]),
      fd ∈ flattenRow r.files_json := by
  unfold db_upsert
  by_cases hc : db.any (fun r => r.key = key) = true
  · rw [if_pos hc]
    obtain ⟨r₀, hr₀, hkey⟩ := List.any_eq_true.mp hc
    have hkey' : r₀.key = key := by simpa using hkey
    have hmem := List.mem_map_of_mem
      (fun r => if r.key = key then
        { r with files_json := r.files_json ++ [JElem.arr [JVal.obj fd]] } else r) hr₀
    dsimp only at hmem
    rw [if_pos hkey'] at hmem
    refine ⟨_, hmem, ?_⟩
    simp [flattenRow, flattenElem, List.flatMap_append]
  · rw [if_neg hc]
    exact ⟨⟨key, ext, cat, [JElem.obj fd]⟩, by simp, by simp [flattenRow, flattenElem]⟩

theorem db_upsert_mem_preserved {db : List Row} (key ext cat : String)
    (ins : List JElem) (app : JElem) {r : Row} (hr : r ∈ db) :
    ∃ r' ∈ db_upsert db key ext cat ins app,
      ∀ x ∈ flattenRow r.files_json, x ∈ flattenRow r'.files_json := by
  unfold db_upsert
  by_cases hc : db.any (fun r => r.key = key) = true
  · rw [if_pos hc]
    refine ⟨(if r.key = key then { r with files_json := r.files_json ++ [app] } else r),
      List.mem_map_of_mem _ hr, ?_⟩
    by_cases hk : r.key = key
    · rw [if_pos hk]
      intro x hx
      simp only [flattenRow, List.flatMap_append, List.mem_append]
      exact Or.inl (by simpa [flattenRow] using hx)
    · rw [if_neg hk]
      intro x hx
      exact hx
  · rw [if_neg hc]
    exact ⟨r, List.mem_append_left _ hr, fun x hx => hx⟩

theorem build_step_spec {d : List Row} {fd : FileData}
    (hfd : fd.file_name ≠ "" → (norm_key fd.file_name).isSome) :
    ∃ d', build_step d fd = some d' ∧
      (∀ r ∈ d, ∃ r' ∈ d', ∀ x ∈ flattenRow r.files_json, x ∈ flattenRow r'.files_json) ∧
      (fd.file_name ≠ "" → ∃ r' ∈ d', fd ∈ flattenRow r'.files_json) := by
  by_cases hn : fd.file_name = ""
  · refine ⟨d, ?_, fun r hr => ⟨r, hr, fun x hx => hx⟩, fun h => absurd hn h⟩
    unfold build_step
    rw [if_pos hn]
  · obtain ⟨key, hkey⟩ := Option.isSome_iff_exists.mp (hfd hn)
    refine ⟨db_upsert d key
        (if fd.file_type = "" then "unknown" else str_lower fd.file_type)
        (get_file_category (if fd.file_type = "" then "unknown" else str_lower fd.file_type))
        [JElem.obj fd] (JElem.arr [JVal.obj fd]), ?_, ?_, ?_⟩
    · unfold build_step
      rw [if_neg hn, hkey]
    · intro r hr
      exact db_upsert_mem_preserved _ _ _ _ _ hr
    · intro _
      exact db_upsert_mem_new d key _ _ fd

theorem build_complete_aux :
    ∀ (l : List FileData) (d₀ : List Row),
      (∀ fd ∈ l, fd.file_name ≠ "" → (norm_key fd.file_name).isSome) →
      ∃ d, List.foldlM build_step d₀ l = some d ∧
        (∀ r ∈ d₀, ∃ r' ∈ d, ∀ x ∈ flattenRow r.files_json, x ∈ flattenRow r'.files_json) ∧
        (∀ fd ∈ l, fd.file_name ≠ "" → ∃ r' ∈ d, fd ∈ flattenRow r'.files_json) := by
  intro l
  induction l with
  | nil =>
    intro d₀ _
    exact ⟨d₀, by rw [List.foldlM_nil]; rfl, fun r hr => ⟨r, hr, fun x hx => hx⟩, by simp⟩
  | cons y ys ih =>
    intro d₀ hall
    obtain ⟨d₁, hstep, hpres₁, hy⟩ := build_step_spec (d := d₀) (hall y (by simp))
    obtain ⟨d, hfold, hpres₂, hmem⟩ := ih d₁ (fun fd hfd => hall fd (by simp [hfd]))
    refine ⟨d, ?_, ?_, ?_⟩
    · rw [List.foldlM_cons, hstep]
      exact hfold
    · intro r hr
      obtain ⟨r₁, hr₁, hsub₁⟩ := hpres₁ r hr
      obtain ⟨r₂, hr₂, hsub₂⟩ := hpres₂ r₁ hr₁
      exact ⟨r₂, hr₂, fun x hx => hsub₂ x (hsub₁ x hx)⟩
    · intro fd hfd hne
      rcases List.mem_cons.mp hfd with h | h
      · subst h
        obtain ⟨r₁, hr₁, hfd₁⟩ := hy hne
        obtain ⟨r₂, hr₂, hsub₂⟩ := hpres₂ r₁ hr₁
        exact ⟨r₂, hr₂, hsub₂ _ hfd₁⟩
      · exact hmem fd h hne

/-- `search_db` returns a result (never raises) for queries all of whose
characters have canonical keys. -/
theorem search_db_total {q : String} (limit : Nat) (cats : List String)
    (db : List Row) (hq : ∀ c ∈ q.data, (get_value c.toLower).isSome) :
    ∃ res, search_db q limit cats db = some res := by
  by_cases hqe : q = ""
  · exact ⟨[], by unfold search_db; rw [if_pos hqe]⟩
  · obtain ⟨ks, hks⟩ := mapKeys_isSome q.data hq
    refine ⟨scanRows limit []
      ((db.filter (matchesRow (joinKeys ks) cats)).take limit), ?_⟩
    unfold search_db
    rw [if_neg hqe]
    have hn : norm_key q = some (joinKeys ks) := by
      unfold norm_key
      rw [hks]
      rfl
    rw [hn]

theorem db_upsert_frame {db : List Row} {key : String} (ext cat : String)
    (ins : List JElem) (app : JElem) (hex : ∃ r ∈ db, r.key = key) :
    (db_upsert db key ext cat ins app).length = db.length ∧
    ∀ r' ∈ db_upsert db key ext cat ins app, ∃ r ∈ db,
      r'.key = r.key ∧ r'.file_extension = r.file_extension ∧
      r'.file_category = r.file_category ∧
      (r'.files_json = r.files_json ∨ r'.files_json = r.files_json ++ [app]) := by
  have hany : db.any (fun r => r.key = key) = true := by
    obtain ⟨r, hr, hk⟩ := hex
    exact List.any_eq_true.mpr ⟨r, hr, by simp [hk]⟩
  unfold db_upsert
  rw [if_pos hany]
  refine ⟨by simp, ?_⟩
  intro r' hr'
  obtain ⟨r, hr, hfr⟩ := List.mem_map.mp hr'
  by_cases hk : r.key = key
  · rw [if_pos hk] at hfr
    subst hfr
    exact ⟨r, hr, rfl, rfl, rfl, Or.inr rfl⟩
  · rw [if_neg hk] at hfr
    subst hfr
    exact ⟨r, hr, rfl, rfl, rfl, Or.inl rfl⟩

/-! ## Claim theorems -/

/-- **C1** (corrected).  Indexing `report.pdf` and `Report.PDF` into the
durable prefix index puts both into one single row with category `document`,
whose records array holds both occurrences, and `search("report", limit=10)`
returns both — but the row key is `"reportdotpdf"`, not `"reportpdf"`: the
`'.'` is spelled out as `"dot"` by `get_value`, not dropped. -/
theorem c1_report_scenario :
    build_search_index [c1rec1, c1rec2] = some [c1row] ∧
    c1row.key = "reportdotpdf" ∧
    c1row.file_category = "document" ∧
    flattenRow c1row.files_json = [c1rec1, c1rec2] ∧
    search_db "report" 10 [] [c1row] = some [c1rec1, c1rec2] :=
  ⟨by decide, rfl, rfl, by decide, by decide⟩

/-- **C1** counterexample to the claim as stated: after indexing the two
records, the index holds no row whose key is `"reportpdf"` (the single row is
keyed `"reportdotpdf"`). -/
theorem c1_counterexample :
    build_search_index [c1rec1, c1rec2] = some [c1row] ∧
    ([c1row].all fun r => r.key ≠ "reportpdf") = true :=
  ⟨by decide, by decide⟩

/-- **C2** (corrected).  `get_value` is injective only up to letter case:
two characters mapped to the same canonical key have the same lowercase
form. -/
theorem c2_injective_up_to_case {a b : Char} {k : String}
    (h₁ : get_value a = some k) (h₂ : get_value b = some k) :
    a.toLower = b.toLower := by
  have e₁ := key_char_get_value h₁
  have e₂ := key_char_get_value h₂
  rw [e₁] at e₂
  exact Option.some.inj e₂

/-- Witness for **C2**: the theorem applied at `'A'`, `'a'`, key `"a"`. -/
theorem c2_witness : Char.toLower 'A' = Char.toLower 'a' :=
  c2_injective_up_to_case (a := 'A') (b := 'a') (k := "a") (by decide) (by decide)

/-- **C2** counterexample to injectivity as claimed: `'A'` and `'a'` are
distinct characters, both with the canonical key `"a"`. -/
theorem c2_counterexample :
    'A' ≠ 'a' ∧ get_value 'A' = some "a" ∧ get_value 'a' = some "a" := by decide

/-- **C4** (corrected).  Round-trip of the trie for every *nonempty* name
that passes character validation: after building from the single record,
querying the full name returns a list containing the record.  (The empty name
also passes `check_letters`, but `build_trees` then raises `IndexError` — see
the counterexample.) -/
theorem c4_roundtrip (n p t : String) (hv : check_letters n = true)
    (hne : n ≠ "") : trie_roundtrip n p t = true := by
  cases hd : n.data with
  | nil => exact absurd (eq_empty_of_data_nil hd) hne
  | cons c cs =>
    have hvalid := check_letters_valid hv
    obtain ⟨k0, hk0⟩ := Option.isSome_iff_exists.mp
      (hvalid c (by rw [hd]; exact List.mem_cons_self c cs))
    obtain ⟨rest, hrest⟩ := mapKeys_isSome cs
      (fun x hx => hvalid x (by rw [hd]; exact List.mem_cons_of_mem c hx))
    set fd : FileData := mkFileData n p t with hfd
    set R : Roots := (fun k => if k = k0 then
        (if rest = [] then
          Trie.node ((initRoots k0).files ++ [fd]) (initRoots k0).children
         else insertPath (initRoots k0) rest fd)
       else initRoots k) with hR
    have hstep : build_trees_step initRoots fd = some R := by
      have hv' : check_letters fd.file_name = true := hv
      unfold build_trees_step
      rw [if_pos hv']
      have hd' : fd.file_name.data = c :: cs := hd
      rw [hd']
      dsimp only
      rw [hk0]
      dsimp only
      rw [hrest]
    have hbuild : build_trees [fd] = some R := by
      unfold build_trees
      rw [List.foldlM_cons, hstep]
      rfl
    have hRk : R k0 = (if rest = [] then
        Trie.node ((initRoots k0).files ++ [fd]) (initRoots k0).children
       else insertPath (initRoots k0) rest fd) := by
      rw [hR]
      dsimp only
      rw [if_pos rfl]
    by_cases hcs : cs = []
    · subst hcs
      have hrnil : rest = [] := by
        unfold mapKeys at hrest
        injection hrest with h
        exact h.symm
      subst hrnil
      have hsearch : search_tree R n = some ((initRoots k0).files ++ [fd]) := by
        unfold search_tree
        rw [if_neg hne, hd]
        dsimp only
        rw [hk0]
        dsimp only
        rw [hRk, if_pos rfl]
        rfl
      unfold trie_roundtrip
      rw [hbuild]
      dsimp only
      rw [hsearch]
      dsimp only
      simp [initRoots, Trie.empty, Trie.files]
    · have hrne : rest ≠ [] := by
        cases cs with
        | nil => exact absurd rfl hcs
        | cons a as => exact mapKeys_cons_ne_nil hrest
      have hfiles : filesAt (insertPath (initRoots k0) rest fd) rest = [fd] := by
        rw [filesAt_insertPath rest fd _ rest hrne]
        have h1 : filesAt (initRoots k0) rest = [] := by
          cases rest with
          | nil => exact absurd rfl hrne
          | cons y ys =>
            have hnone : lookupChild (initRoots k0).children y = none := rfl
            exact filesAt_cons_of_lookup_none hnone
        have h2 : rest.isPrefixOf rest = true :=
          List.isPrefixOf_iff_prefix.mpr List.prefix_rfl
        rw [h1, h2]
        simp
      have hsearch : search_tree R n = some [fd] := by
        unfold search_tree
        rw [if_neg hne, hd]
        dsimp only
        rw [hk0]
        dsimp only
        rw [walkChars_of_mapKeys hrest (R k0), hRk, if_neg hrne, hfiles]
      unfold trie_roundtrip
      rw [hbuild]
      dsimp only
      rw [hsearch]
      dsimp only
      simp

/-- Witness for **C4**: the round-trip at the name `"ab"`. -/
theorem c4_witness : trie_roundtrip "ab" "C:/ab" "txt" = true :=
  c4_roundtrip "ab" "C:/ab" "txt" (by decide) (by decide)

/-- **C4** counterexample to the claim as stated: the empty name passes
character validation, yet `build_trees` raises (`list('')[0]` is an
`IndexError`) and the round-trip fails. -/
theorem c4_counterexample :
    check_letters "" = true ∧
    build_trees [mkFileData "" "C:/x" "folder"] = none ∧
    trie_roundtrip "" "C:/x" "folder" = false := by
  refine ⟨by decide, ?_, ?_⟩
  · rfl
  · rfl

/-- **C10** (confirmed).  For the empty query both `search_tree` and
`search_db` return `[]` for every index state, before consulting any stored
data and without raising. -/
theorem c10_empty_query :
    (∀ roots : Roots, search_tree roots "" = some []) ∧
    (∀ (limit : Nat) (cats : List String) (db : List Row),
      search_db "" limit cats db = some []) := by
  refine ⟨fun roots => ?_, fun limit cats db => ?_⟩ <;> rfl

/-- **C3** (corrected).  Prefix monotonicity holds with two provisos the code
forces: for the trie search the shorter query must have length at least two
(records of names longer than one character are never appended to root nodes,
so a single-character query misses them), and for the durable-index search
the shorter query must be nonempty (the empty query short-circuits to `[]`).
Under those provisos, every record returned by the longer query is in the
result of the shorter query run without a limit cap. -/
theorem c3_prefix_monotonicity :
    (∀ (l : List FileData) (roots : Roots) (p₁ p₂ : String)
        (res₂ : List FileData) (x : FileData),
        build_trees l = some roots → p₁.data <+: p₂.data → 2 ≤ p₁.length →
        search_tree roots p₂ = some res₂ → x ∈ res₂ →
        memSearchTree x roots p₁) ∧
    (∀ (p₁ p₂ : String) (limit : Nat) (cats : List String) (db : List Row)
        (res₂ : List FileData) (x : FileData),
        p₁ ≠ "" → p₁.data <+: p₂.data →
        search_db p₂ limit cats db = some res₂ → x ∈ res₂ →
        memSearchDbNolimit x p₁ cats db) := by
  constructor
  · intro l roots p₁ p₂ res₂ x hb hpre hlen h₂ hx
    obtain ⟨res₁, h₁, hm⟩ := search_tree_mono hb hpre hlen h₂ hx
    unfold memSearchTree
    rw [h₁]
    exact hm
  · intro p₁ p₂ limit cats db res₂ x hne hpre h₂ hx
    obtain ⟨res₁, h₁, hm⟩ := search_db_mono hne hpre h₂ hx
    unfold memSearchDbNolimit
    rw [h₁]
    exact hm

/-- Witness for **C3**: the trie part at `p₁ = "ab"`, `p₂ = "abc"` over the
forest built from `abc`, and the durable part at `p₁ = "a"`, `p₂ = "ab"`. -/
theorem c3_witness :
    memSearchTree abcRec abcRoots "ab" ∧
    memSearchDbNolimit c7rec1 "a" [] [c7wfrow] :=
  ⟨c3_prefix_monotonicity.1 [abcRec] abcRoots "ab" "abc" [abcRec] abcRec
      rfl (by decide) (by decide) (by decide) (by decide),
   c3_prefix_monotonicity.2 "a" "ab" 5 [] [c7wfrow] [c7rec1, c7rec2] c7rec1
      (by decide) (by decide) (by decide) (by decide)⟩

/-- **C3** counterexample to the claim as stated: `"a"` is a strict prefix of
`"ab"`, the record for `ab` is returned by `search_tree "ab"`, yet
`search_tree "a"` (which has no limit cap) returns `[]` — root nodes never
receive records of longer names. -/
theorem c3_counterexample :
    ((build_trees [abRec]).map (fun r => (search_tree r "ab", search_tree r "a")) =
      some (some [abRec], some [])) ∧
    "a".data <+: "ab".data ∧ "a" ≠ "ab" :=
  ⟨by decide, by decide, by decide⟩

/-- **C5** (corrected).  `build_search_index` performs no per-record
character validation: a record whose name has a character without a canonical
key makes `get_value` raise `ValueError`, aborting the whole batch — records
are not skipped and later records are never indexed.  When every record's
name normalizes, the build completes and every record with a nonempty name is
indexed.  (Validation-and-skip lives upstream, in `collect_entries` and
`index_to_file_search_db`, not in `build_search_index`.) -/
theorem c5_build_validation :
    (∀ (l : List FileData) (f : FileData), f ∈ l → f.file_name ≠ "" →
      norm_key f.file_name = none → build_search_index l = none) ∧
    (∀ l : List FileData,
      (∀ f ∈ l, f.file_name ≠ "" → (norm_key f.file_name).isSome) →
      allRecordsIndexed l = true) := by
  constructor
  · intro l f hmem hne hnorm
    exact build_abort_aux l [] f hmem hne hnorm
  · intro l hall
    obtain ⟨d, hd, -, hmem⟩ := build_complete_aux l [] hall
    unfold allRecordsIndexed build_search_index
    rw [hd]
    refine List.all_eq_true.mpr ?_
    intro fd hfd
    by_cases hne : fd.file_name = ""
    · simp [hne]
    · obtain ⟨r, hr, hx⟩ := hmem fd hfd hne
      simp only [hne, decide_eq_false, Bool.false_or]
      exact List.any_eq_true.mpr ⟨r, hr, by simpa using hx⟩

/-- Witness for **C5**: a record named `a/b` aborts the batch; a valid batch
of one record is fully indexed. -/
theorem c5_witness :
    build_search_index [mkFileData "a/b" "C:/a/b" "unknown"] = none ∧
    allRecordsIndexed [mkFileData "ok.txt" "C:/ok.txt" "txt"] = true :=
  ⟨c5_build_validation.1 [mkFileData "a/b" "C:/a/b" "unknown"]
      (mkFileData "a/b" "C:/a/b" "unknown") (by decide) (by decide) (by decide),
   c5_build_validation.2 [mkFileData "ok.txt" "C:/ok.txt" "txt"] (by decide)⟩

/-- **C5** counterexample to skip-and-continue as claimed: the batch
`[a/b, ok.txt]` raises (returns no index state at all), so the valid record
`ok.txt` is not indexed either — the invalid record was not skipped. -/
theorem c5_counterexample :
    build_search_index
      [mkFileData "a/b" "C:/a/b" "unknown", mkFileData "ok.txt" "C:/ok.txt" "txt"] =
      none := by decide

/-- **C6** (corrected).  `search_db` returns a list (never raises) for every
query string all of whose characters have canonical keys; for a query
containing a character with no key (such as `/` or `*`), the `ValueError`
from `get_value` propagates out of `search_db` — see the counterexample.
(The public API caller sanitizes with `clean_query` and catches, but
`search_db` itself raises.) -/
theorem c6_search_db_no_raise :
    ∀ (q : String) (limit : Nat) (cats : List String) (db : List Row),
      (∀ c ∈ q.data, (get_value c.toLower).isSome) →
      (search_db q limit cats db).isSome = true := by
  intro q limit cats db hq
  obtain ⟨res, hres⟩ := search_db_total limit cats db hq
  rw [hres]
  rfl

/-- Witness for **C6**: the theorem applied at query `"report"`. -/
theorem c6_witness : (search_db "report" 5 [] []).isSome = true :=
  c6_search_db_no_raise "report" 5 [] [] (by decide)

/-- **C6** counterexample to never-raises as claimed: the queries `"/"` and
`"*"` make `search_db` raise (`get_value` has no key for them). -/
theorem c6_counterexample :
    search_db "/" 10 [] [] = none ∧ search_db "*" 10 [] [] = none := by decide

/-- **C7** (corrected).  `search_db` returns at most `limit` records for
every table state in which nested arrays inside `files_json` have at most one
element — which holds for every state this repository's writers produce
(second conjunct).  For an arbitrary state a nested array of two or more
records can overshoot the limit, because the length check runs only after a
whole nested array has been flattened — see the counterexample. -/
theorem c7_search_db_limit :
    (∀ (q : String) (limit : Nat) (cats : List String) (db : List Row)
        (res : List FileData), 1 ≤ limit →
        (∀ r ∈ db, ∀ e ∈ r.files_json, wfElem e = true) →
        search_db q limit cats db = some res → res.length ≤ limit) ∧
    (∀ (l : List FileData) (d : List Row), build_search_index l = some d →
        ∀ r ∈ d, ∀ e ∈ r.files_json, wfElem e = true) :=
  ⟨fun _ _ _ _ _ hlim hwf h => search_db_length_le hlim hwf h,
   fun _ _ h => build_search_index_wf h⟩

/-- Witness for **C7**: the cap holds at `limit = 1` on a writer-shaped
row. -/
theorem c7_witness : ([c7rec1] : List FileData).length ≤ 1 :=
  c7_search_db_limit.1 "ab" 1 [] [c7wfrow] [c7rec1] (by decide) (by decide) (by decide)

/-- **C7** counterexample to the claim over arbitrary database states: a row
holding a two-element nested array makes `search_db` with `limit = 1` return
two records. -/
theorem c7_counterexample :
    search_db "ab" 1 [] [c7row] = some [c7rec1, c7rec2] ∧
    ¬ (([c7rec1, c7rec2] : List FileData).length ≤ 1) := by decide

/-- **C8** (confirmed).  Upserting a record whose normalized name already has
a row leaves every row's key, extension and category unchanged and adds no
row; only the records array of the conflicting row grows by the appended
element.  This holds for the per-record upsert of `build_search_index`
(`build_step`) and for `index_to_file_search_db`. -/
theorem c8_upsert_frame {d : List Row} {f : FileData} {k : String}
    (hk : norm_key f.file_name = some k) (hne : f.file_name ≠ "")
    (hv : has_valid_characters f.file_name = true)
    (hex : ∃ r ∈ d, r.key = k) :
    (∃ d', build_step d f = some d' ∧ d'.length = d.length ∧
      ∀ r' ∈ d', ∃ r ∈ d, r'.key = r.key ∧ r'.file_extension = r.file_extension ∧
        r'.file_category = r.file_category ∧
        (r'.files_json = r.files_json ∨
         r'.files_json = r.files_json ++ [JElem.arr [JVal.obj f]]))
    ∧ ((index_to_file_search_db d f).2 = true ∧
       (index_to_file_search_db d f).1.length = d.length ∧
       ∀ r' ∈ (index_to_file_search_db d f).1, ∃ r ∈ d,
         r'.key = r.key ∧ r'.file_extension = r.file_extension ∧
         r'.file_category = r.file_category ∧
         (r'.files_json = r.files_json ∨
          r'.files_json = r.files_json ++ [JElem.obj f])) := by
  constructor
  · refine ⟨db_upsert d k (if f.file_type = "" then "unknown" else str_lower f.file_type)
      (get_file_category (if f.file_type = "" then "unknown" else str_lower f.file_type))
      [JElem.obj f] (JElem.arr [JVal.obj f]), ?_, ?_⟩
    · unfold build_step
      rw [if_neg hne, hk]
    · exact db_upsert_frame _ _ _ _ hex
  · have h2 : index_to_file_search_db d f =
        (db_upsert d k (if f.file_type = "" then "unknown" else str_lower f.file_type)
          (auto_get_file_category f.file_type) [JElem.other] (JElem.obj f), true) := by
      unfold index_to_file_search_db
      rw [if_pos hv, hk]
    rw [h2]
    exact ⟨rfl, (db_upsert_frame _ _ _ _ hex).1, (db_upsert_frame _ _ _ _ hex).2⟩

/-- Witness for **C8**: upserting a second `a.txt` into a table that already
has the row `adottxt` keeps the row count. -/
theorem c8_witness :
    (index_to_file_search_db [c8row] c8rec).2 = true ∧
    (index_to_file_search_db [c8row] c8rec).1.length = ([c8row] : List Row).length :=
  ⟨(c8_upsert_frame (d := [c8row]) (f := c8rec) (k := "adottxt")
      (by decide) (by decide) (by decide) (by decide)).2.1,
   (c8_upsert_frame (d := [c8row]) (f := c8rec) (k := "adottxt")
      (by decide) (by decide) (by decide) (by decide)).2.2.1⟩

/-- **C9** (corrected).  With an *existing but empty* embeddings store and an
unloaded cache, `search_images` returns `[]`, leaves the state untouched and
`is_embeddings_loaded` stays false.  With a *missing* store (no database file
or no `embeddings` table — `sqlite3.connect` creates an empty schema-less
file), the `SELECT` raises `sqlite3.OperationalError`, so the missing case
errors instead of returning `[]` — see the counterexample. -/
theorem c9_empty_store {V : Type} (n : List V → List V)
    (s : String → List V → List String → List String) (t : Nat)
    (c : ImgCache V) (q : String) (m : Nat)
    (h : c.embeddings_loaded = false) :
    search_images n s (some []) t c q m = some (c, []) ∧
    is_embeddings_loaded c = false := by
  constructor
  · simp [search_images, load_embeddings, h]
  · exact h

/-- Witness for **C9**: the fresh module state with an empty store. -/
theorem c9_witness :
    search_images (V := Unit) id (fun _ _ p => p) (some []) 0 (ImgCache.init Unit)
      "cat" 3 = some (ImgCache.init Unit, []) ∧
    is_embeddings_loaded (ImgCache.init Unit) = false :=
  c9_empty_store id (fun _ _ p => p) 0 (ImgCache.init Unit) "cat" 3 rfl

/-- **C9** counterexample to the "or missing" half of the claim: with a
missing store the search raises instead of returning `[]`. -/
theorem c9_counterexample :
    search_images (V := Unit) id (fun _ _ p => p) none 0 (ImgCache.init Unit)
      "cat" 3 = none := rfl

end SmartSearch
